import Mathlib

/-!
Shallow embedding of the client-side core of the note-taking web app:
`noteManager.js` (pure note operations), `storage.js` (browser-storage
wrappers), `appwrite.js` (remote document-store calls) and `main.js`
(cache-synchronising handlers, draft restore).  JavaScript strings are
modelled as lists of characters, awaited remote calls as explicit `Except`
results (an exception is `Except.error`), and a browser storage cell as a
three-state `Stored` value: absent, present but not valid JSON, or parsed.
-/

/-- JavaScript strings, modelled as lists of UTF-16-like characters. -/
abbrev Str := List Char

/-- JavaScript `String.prototype.toLowerCase`, character by character. -/
def lowerStr (s : Str) : Str := s.map Char.toLower

/-- JavaScript `String.prototype.trim`: drop leading and trailing whitespace. -/
def trimStr (s : Str) : Str :=
  ((s.dropWhile Char.isWhitespace).reverse.dropWhile Char.isWhitespace).reverse

/-- Serialisation of a tag list used by `ui.showNoteDetail`
(`note.tags.join(", ")`) and by the draft comparison in `main.restoreDraft`. -/
def joinTags (tags : List Str) : Str := List.intercalate (", ".toList) tags

/-- Tag parsing in `main.handleSaveNote`:
`tagsText.split(",").map(t => t.trim()).filter(t => t)`. -/
def parseTags (s : Str) : List Str :=
  ((s.splitOn ',').map trimStr).filter (fun t => !t.isEmpty)

/-- A note as held in `notesCache` (see `appwrite.getAllNotes` and
`noteManager.createNote`). -/
structure Note where
  id : Str
  title : Str
  content : Str
  tags : List Str
  archived : Bool
  createdAt : Str
  updatedAt : Str
  deriving DecidableEq

namespace noteManager

/-- The `searchNotes` function of `noteManager.js`: an empty query returns
the input, otherwise keep the notes whose lowercased title, content or one
of whose lowercased tags contains the lowercased query. -/
def searchNotes (notes : List Note) (query : Str) : List Note :=
  if query = [] then notes
  else
    notes.filter (fun note =>
      decide (lowerStr query <:+: lowerStr note.title) ||
      decide (lowerStr query <:+: lowerStr note.content) ||
      note.tags.any (fun tag => decide (lowerStr query <:+: lowerStr tag)))

/-- The `archiveNote` function of `noteManager.js`: map over the notes,
negating `archived` and refreshing `updatedAt` on the note with the given
id (`now` stands for `new Date().toISOString()`). -/
def archiveNote (notes : List Note) (id : Str) (now : Str) : List Note :=
  notes.map (fun note =>
    if note.id = id then { note with archived := !note.archived, updatedAt := now }
    else note)

/-- One step of the JS `Set.add` used by `getAllTags`: insertion-ordered,
duplicates ignored. -/
def setAdd (acc : List Str) (t : Str) : List Str :=
  if t ∈ acc then acc else acc ++ [t]

/-- The tag-collection loop of `getAllTags`: every tag of every note is
added to the set. -/
def collectTags (notes : List Note) : List Str :=
  notes.foldl (fun acc note => note.tags.foldl setAdd acc) []

/-- The `getAllTags` function of `noteManager.js`: `Array.from(set).sort()`,
with the default lexicographic string sort. -/
def getAllTags (notes : List Note) : List Str :=
  List.insertionSort (fun a b : Str => a ≤ b) (collectTags notes)

end noteManager

namespace storage

/-- A browser storage cell for a value of shape `α`: the key may be absent,
hold text that does not parse as JSON, or hold a parsed value. -/
inductive Stored (α : Type) where
  | absent
  | corrupt
  | value (a : α)
  deriving DecidableEq

/-- The `loadNotes` function of `storage.js`: the parsed array, `[]` when
the key is absent or `JSON.parse` throws. -/
def loadNotes : Stored (List Note) → List Note
  | .absent => []
  | .corrupt => []
  | .value ns => ns

/-- The preferences object persisted by `storage.js`. -/
structure Prefs where
  theme : Str
  font : Str
  deriving DecidableEq

/-- The defaults returned by `loadPreferences`. -/
def defaultPrefs : Prefs := { theme := "light".toList, font := "sans-serif".toList }

/-- The `loadPreferences` function of `storage.js`: the parsed object, or
the defaults when the key is absent or `JSON.parse` throws. -/
def loadPreferences : Stored Prefs → Prefs
  | .absent => defaultPrefs
  | .corrupt => defaultPrefs
  | .value p => p

/-- A partial preferences object passed to `savePreferences` (callers pass
`{ theme }` or `{ font }`). -/
structure PrefsPatch where
  theme : Option Str
  font : Option Str
  deriving DecidableEq

/-- The JS spread `{ ...existing, ...prefs }`: a field present in the patch
overrides the existing one. -/
def mergePrefs (existing : Prefs) (p : PrefsPatch) : Prefs :=
  { theme := p.theme.getD existing.theme, font := p.font.getD existing.font }

/-- The `savePreferences` function of `storage.js`: load the existing
preferences, merge the patch over them, store the result. -/
def savePreferences (store : Stored Prefs) (p : PrefsPatch) : Stored Prefs :=
  Stored.value (mergePrefs (loadPreferences store) p)

/-- The draft blob `main.handleDraftAutoSave` persists: `tags` is the raw
text of the tags input (a joined string, not a list), `timestamp` is the
draft time in milliseconds since the epoch. -/
structure Draft where
  noteId : Str
  title : Str
  content : Str
  tags : Str
  timestamp : Int
  deriving DecidableEq

/-- The `loadDraft` function of `storage.js`: the parsed draft, or `null`
when the key is absent or `JSON.parse` throws. -/
def loadDraft : Stored Draft → Option Draft
  | .absent => none
  | .corrupt => none
  | .value d => some d

end storage

namespace appwrite

/-- A document of the remote `notes` collection as the Appwrite SDK returns
it: `content`, `tags` and `archived` may be absent (the `|| default`
fallbacks in `getAllNotes`). -/
structure AppwriteDoc where
  docId : Str
  title : Str
  content : Option Str
  tags : Option (List Str)
  archived : Option Bool
  createdAt : Str
  updatedAt : Str
  deriving DecidableEq

/-- The document-to-note transformation inside `appwrite.getAllNotes`. -/
def docToNote (doc : AppwriteDoc) : Note :=
  { id := doc.docId
    title := doc.title
    content := doc.content.getD []
    tags := doc.tags.getD []
    archived := doc.archived.getD false
    createdAt := doc.createdAt
    updatedAt := doc.updatedAt }

/-- The `getAllNotes` function of `appwrite.js`: `listDocuments` with
`Query.orderDesc("$createdAt")` and `Query.limit(100)`, then the
document-to-note map.  The remote collection is the function's argument;
the service orders it by descending creation time and returns at most 100
documents. -/
def getAllNotes (collection : List AppwriteDoc) : List Note :=
  ((List.insertionSort (fun a b : AppwriteDoc => b.createdAt ≤ a.createdAt)
      collection).take 100).map docToNote

end appwrite

namespace main

/-- The kind of toast `ui.showToast` is called with. -/
inductive ToastKind where
  | success
  | error
  | info
  deriving DecidableEq

/-- What a mutating handler of `main.js` does to the app: the `notesCache`
array afterwards, the argument passed to `ui.renderAllNotes` (none when the
handler does not re-render), and the toast it shows. -/
structure HandlerOutput where
  cache : List Note
  rendered : Option (List Note)
  toast : Option ToastKind
  deriving DecidableEq

/-- The `currentView` value naming the archived-notes view. -/
def archivedView : Str := "archived".toList

/-- The view-dependent re-render of `performArchive` and `performDelete`:
`currentView === "archived"` shows the archived notes, any other view the
non-archived ones. -/
def renderForView (view : Str) (cache : List Note) : List Note :=
  if view = archivedView then cache.filter (fun n => n.archived)
  else cache.filter (fun n => !n.archived)

/-- The `handleCreateNote` handler of `main.js`, as a function of the
awaited `appwrite.createNote` result: on success the new note is unshifted
onto `notesCache` and the non-archived notes are re-rendered; on failure
the cache is untouched and an error toast shows. -/
def handleCreateNote (cache : List Note) (remote : Except Unit Note) : HandlerOutput :=
  match remote with
  | .ok newNote =>
    { cache := newNote :: cache
      rendered := some ((newNote :: cache).filter (fun n => !n.archived))
      toast := some .success }
  | .error _ => { cache := cache, rendered := none, toast := some .error }

/-- The `handleSaveNote` handler of `main.js`, as a function of
`ui.getCurrentNoteId()` and the awaited `appwrite.updateNote` result: with
no current note it returns early; on success the note at the matching
`findIndex` is replaced and the non-archived notes are re-rendered; on
failure the cache is untouched and an error toast shows. -/
def handleSaveNote (cache : List Note) (noteId : Option Str)
    (remote : Except Unit Note) : HandlerOutput :=
  match noteId with
  | none => { cache := cache, rendered := none, toast := none }
  | some nid =>
    match remote with
    | .ok updatedNote =>
      let cache2 :=
        match cache.findIdx? (fun n => decide (n.id = nid)) with
        | some i => cache.set i updatedNote
        | none => cache
      { cache := cache2
        rendered := some (cache2.filter (fun n => !n.archived))
        toast := some .success }
    | .error _ => { cache := cache, rendered := none, toast := some .error }

/-- The `performArchive` handler of `main.js`, as a function of the awaited
`appwrite.archiveNote` result: on success `notesCache[index].archived` is
assigned in place at the matching `findIndex` and the current view is
re-rendered; on failure the cache is untouched and an error toast shows. -/
def performArchive (cache : List Note) (view : Str) (noteId : Str)
    (archive : Bool) (remote : Except Unit Unit) : HandlerOutput :=
  match remote with
  | .ok _ =>
    let cache2 :=
      match cache.findIdx? (fun n => decide (n.id = noteId)) with
      | some i => List.modify (fun n => { n with archived := archive }) i cache
      | none => cache
    { cache := cache2
      rendered := some (renderForView view cache2)
      toast := some .success }
  | .error _ => { cache := cache, rendered := none, toast := some .error }

/-- The `performDelete` handler of `main.js`, as a function of the awaited
`appwrite.deleteNote` result: on success the note is filtered out of
`notesCache` and the current view is re-rendered; on failure the cache is
untouched and an error toast shows. -/
def performDelete (cache : List Note) (view : Str) (noteId : Str)
    (remote : Except Unit Unit) : HandlerOutput :=
  match remote with
  | .ok _ =>
    let cache2 := cache.filter (fun n => decide (n.id ≠ noteId))
    { cache := cache2
      rendered := some (renderForView view cache2)
      toast := some .success }
  | .error _ => { cache := cache, rendered := none, toast := some .error }

/-- Milliseconds per hour, the divisor in `restoreDraft`'s age check. -/
def msPerHour : Int := 1000 * 60 * 60

/-- What `main.restoreDraft` does on startup. -/
inductive RestoreOutcome where
  | noop
  | cleared
  | restored (note : Note) (draft : storage.Draft)
  deriving DecidableEq

/-- The `restoreDraft` function of `main.js`: return early when no draft is
stored; clear the draft when it is older than 24 hours or its note is not
in `notesCache`; restore it into the editor when its title, content or tags
text differ from the cached note's saved values, and clear it otherwise.
`now` is the current time in milliseconds since the epoch. -/
def restoreDraft (stored : storage.Stored storage.Draft) (notesCache : List Note)
    (now : Int) : RestoreOutcome :=
  match storage.loadDraft stored with
  | none => .noop
  | some draft =>
    if now - draft.timestamp > 24 * msPerHour then .cleared
    else
      match notesCache.find? (fun n => decide (n.id = draft.noteId)) with
      | none => .cleared
      | some note =>
        if draft.title ≠ note.title ∨ draft.content ≠ note.content ∨
            draft.tags ≠ joinTags note.tags then
          .restored note draft
        else .cleared

end main

/-! ### Fixture values used by concrete counterexamples and witnesses -/

/-- An archived note used by concrete instantiations. -/
def cNote : Note :=
  { id := ['a'], title := [], content := [], tags := [], archived := true,
    createdAt := [], updatedAt := [] }

/-- A three-digit decimal id, distinct for each `i < 1000`. -/
def mkDocId (i : Nat) : Str :=
  [Char.ofNat (48 + i / 100), Char.ofNat (48 + (i / 10) % 10), Char.ofNat (48 + i % 10)]

/-- A remote document with the given index as id. -/
def limitDoc (i : Nat) : appwrite.AppwriteDoc :=
  { docId := mkDocId i, title := [], content := none, tags := none,
    archived := none, createdAt := [], updatedAt := [] }

/-- A remote collection of 101 documents with pairwise distinct ids. -/
def limitCol : List appwrite.AppwriteDoc := (List.range 101).map limitDoc

/-! ### Helper lemmas -/

theorem mem_foldl_setAdd (ts : List Str) (acc : List Str) (t : Str) :
    t ∈ ts.foldl noteManager.setAdd acc ↔ t ∈ acc ∨ t ∈ ts := by
  induction ts generalizing acc with
  | nil => simp
  | cons s ss ih =>
    rw [List.foldl_cons, ih]
    by_cases h : s ∈ acc
    · simp only [noteManager.setAdd, if_pos h, List.mem_cons]
      constructor
      · exact fun h1 => h1.elim Or.inl (fun h2 => Or.inr (Or.inr h2))
      · rintro (h1 | h1 | h1)
        · exact Or.inl h1
        · exact Or.inl (h1 ▸ h)
        · exact Or.inr h1
    · simp only [noteManager.setAdd, if_neg h, List.mem_append, List.mem_singleton,
        List.mem_cons]
      tauto

theorem nodup_foldl_setAdd (ts : List Str) (acc : List Str) (h : acc.Nodup) :
    (ts.foldl noteManager.setAdd acc).Nodup := by
  induction ts generalizing acc with
  | nil => simpa using h
  | cons s ss ih =>
    rw [List.foldl_cons]
    apply ih
    by_cases hs : s ∈ acc
    · simpa [noteManager.setAdd, hs] using h
    · simp only [noteManager.setAdd, if_neg hs]
      exact h.append (List.nodup_singleton s) (by simpa using hs)

theorem mem_foldl_collect (ns : List Note) (acc : List Str) (t : Str) :
    t ∈ ns.foldl (fun acc note => note.tags.foldl noteManager.setAdd acc) acc ↔
      t ∈ acc ∨ ∃ n ∈ ns, t ∈ n.tags := by
  induction ns generalizing acc with
  | nil => simp
  | cons n ns ih =>
    rw [List.foldl_cons, ih, mem_foldl_setAdd]
    simp only [List.mem_cons]
    constructor
    · rintro ((h | h) | ⟨m, hm, ht⟩)
      · exact Or.inl h
      · exact Or.inr ⟨n, Or.inl rfl, h⟩
      · exact Or.inr ⟨m, Or.inr hm, ht⟩
    · rintro (h | ⟨m, hm | hm, ht⟩)
      · exact Or.inl (Or.inl h)
      · exact Or.inl (Or.inr (hm ▸ ht))
      · exact Or.inr ⟨m, hm, ht⟩

theorem nodup_foldl_collect (ns : List Note) (acc : List Str) (h : acc.Nodup) :
    (ns.foldl (fun acc note => note.tags.foldl noteManager.setAdd acc) acc).Nodup := by
  induction ns generalizing acc with
  | nil => simpa using h
  | cons n ns ih =>
    rw [List.foldl_cons]
    exact ih _ (nodup_foldl_setAdd _ _ h)

/-! ### Claim theorems -/

/-- Claim C2: for every notes array and non-empty query, `searchNotes`
returns exactly the notes whose lowercased title, lowercased content or
one of whose lowercased tags contains the lowercased query as a substring,
in input order (a sublist of the input); for an empty query it returns the
input unchanged. -/
theorem searchNotes_filters_by_lowercase_substring (notes : List Note) (q : Str) :
    (q = [] → noteManager.searchNotes notes q = notes) ∧
    (noteManager.searchNotes notes q).Sublist notes ∧
    (q ≠ [] → ∀ n, n ∈ noteManager.searchNotes notes q ↔
      n ∈ notes ∧
        (lowerStr q <:+: lowerStr n.title ∨ lowerStr q <:+: lowerStr n.content ∨
          ∃ t ∈ n.tags, lowerStr q <:+: lowerStr t)) := by
  refine ⟨fun h => by simp [noteManager.searchNotes, h], ?_, fun hq n => ?_⟩
  · by_cases h : q = []
    · simp [noteManager.searchNotes, h]
    · simp only [noteManager.searchNotes, if_neg h]
      exact List.filter_sublist _
  · simp [noteManager.searchNotes, hq, List.mem_filter, List.any_eq_true,
      decide_eq_true_eq]
    tauto

/-- Claim C8: `getAllTags` returns a duplicate-free list, sorted in
ascending lexicographic order, containing exactly the tags that occur in
at least one note's tag list. -/
theorem getAllTags_sorted_nodup_exact (notes : List Note) :
    (noteManager.getAllTags notes).Nodup ∧
    List.Sorted (fun a b : Str => a ≤ b) (noteManager.getAllTags notes) ∧
    ∀ t, t ∈ noteManager.getAllTags notes ↔ ∃ n ∈ notes, t ∈ n.tags := by
  refine ⟨?_, ?_, fun t => ?_⟩
  · exact (List.perm_insertionSort _ _).nodup_iff.mpr
      (by unfold noteManager.collectTags; exact nodup_foldl_collect notes [] List.nodup_nil)
  · exact List.sorted_insertionSort _ _
  · rw [noteManager.getAllTags, List.mem_insertionSort]
    unfold noteManager.collectTags
    simpa using mem_foldl_collect notes [] t

/-- Claim C7: `archiveNote` negates the archived flag and refreshes
`updatedAt` of the note with the matching id, leaves every other field of
that note and every note with a different id unchanged (stated pointwise
over indices of the returned list; the input list itself is untouched), and
applying the operation twice restores the original archived flag. -/
theorem archiveNote_toggles_in_place (notes : List Note) (id now now2 : Str) :
    (noteManager.archiveNote notes id now).length = notes.length ∧
    (∀ i : Nat, (noteManager.archiveNote notes id now)[i]? =
      (notes[i]?).map (fun n =>
        if n.id = id then { n with archived := !n.archived, updatedAt := now }
        else n)) ∧
    (∀ i : Nat,
      ((noteManager.archiveNote (noteManager.archiveNote notes id now) id now2)[i]?).map
          Note.archived = (notes[i]?).map Note.archived) := by
  refine ⟨by simp [noteManager.archiveNote], fun i => ?_, fun i => ?_⟩
  · simp [noteManager.archiveNote, List.getElem?_map]
  · simp only [noteManager.archiveNote, List.map_map, List.getElem?_map, Option.map_map]
    cases h : notes[i]? with
    | none => rfl
    | some n =>
      simp only [Option.map_some', Function.comp]
      by_cases hid : n.id = id
      · simp [hid]
      · simp [hid]

/-- Claim C6: `savePreferences` merges the given fields over the stored
preferences — after a save, `loadPreferences` returns the previous
preferences with exactly the fields the patch carries overridden — and with
nothing stored `loadPreferences` returns the documented defaults. -/
theorem preferences_save_then_load (store : storage.Stored storage.Prefs)
    (p : storage.PrefsPatch) :
    ((storage.loadPreferences (storage.savePreferences store p)).theme =
        match p.theme with
        | some t => t
        | none => (storage.loadPreferences store).theme) ∧
    ((storage.loadPreferences (storage.savePreferences store p)).font =
        match p.font with
        | some f => f
        | none => (storage.loadPreferences store).font) ∧
    storage.loadPreferences storage.Stored.absent =
      { theme := "light".toList, font := "sans-serif".toList } := by
  refine ⟨?_, ?_, rfl⟩
  · cases p with
    | mk t f => cases t <;> rfl
  · cases p with
    | mk t f => cases f <;> rfl

/-- Claim C9: the storage loaders are total functions of the stored state —
`loadNotes` returns the parsed array and `[]` on an absent or unparsable
value, `loadPreferences` returns the parsed object and the defaults on an
absent or unparsable value, and `loadDraft` returns the parsed draft and
`none` otherwise. -/
theorem storage_loaders_never_throw :
    (storage.loadNotes storage.Stored.absent = [] ∧
     storage.loadNotes storage.Stored.corrupt = [] ∧
     ∀ ns : List Note, storage.loadNotes (storage.Stored.value ns) = ns) ∧
    (storage.loadPreferences storage.Stored.absent =
        { theme := "light".toList, font := "sans-serif".toList } ∧
     storage.loadPreferences storage.Stored.corrupt =
        { theme := "light".toList, font := "sans-serif".toList } ∧
     ∀ p : storage.Prefs, storage.loadPreferences (storage.Stored.value p) = p) ∧
    (storage.loadDraft storage.Stored.absent = none ∧
     storage.loadDraft storage.Stored.corrupt = none ∧
     ∀ d : storage.Draft, storage.loadDraft (storage.Stored.value d) = some d) :=
  ⟨⟨rfl, rfl, fun _ => rfl⟩, ⟨rfl, rfl, fun _ => rfl⟩, ⟨rfl, rfl, fun _ => rfl⟩⟩

/-- Claim C4: when the awaited remote call of a save, archive or delete
throws, the handler catches it, shows an error toast, re-renders nothing
and leaves `notesCache` exactly as it was. -/
theorem mutation_failure_leaves_cache (cache : List Note) (view nid : Str)
    (archive : Bool) :
    main.handleSaveNote cache (some nid) (Except.error ()) =
      { cache := cache, rendered := none, toast := some main.ToastKind.error } ∧
    main.performArchive cache view nid archive (Except.error ()) =
      { cache := cache, rendered := none, toast := some main.ToastKind.error } ∧
    main.performDelete cache view nid (Except.error ()) =
      { cache := cache, rendered := none, toast := some main.ToastKind.error } :=
  ⟨rfl, rfl, rfl⟩

/-- Claim C5: with a stored draft, `restoreDraft` restores it exactly when
the draft is at most 24 hours old, its `noteId` is found among the cached
notes, and its title, content or joined-tags text differ from that note's
saved values; in every other case the draft is cleared and nothing is
restored. -/
theorem restoreDraft_restores_iff (d : storage.Draft) (cache : List Note) (now : Int) :
    (∀ note, main.restoreDraft (storage.Stored.value d) cache now =
        main.RestoreOutcome.restored note d ↔
      (now - d.timestamp ≤ 24 * main.msPerHour ∧
       cache.find? (fun n => decide (n.id = d.noteId)) = some note ∧
       (d.title ≠ note.title ∨ d.content ≠ note.content ∨
         d.tags ≠ joinTags note.tags))) ∧
    (main.restoreDraft (storage.Stored.value d) cache now = main.RestoreOutcome.cleared ∨
     ∃ note, main.restoreDraft (storage.Stored.value d) cache now =
       main.RestoreOutcome.restored note d) := by
  by_cases hage : now - d.timestamp > 24 * main.msPerHour
  · have hout : main.restoreDraft (storage.Stored.value d) cache now =
        main.RestoreOutcome.cleared := by
      simp [main.restoreDraft, storage.loadDraft, hage]
    refine ⟨fun note => ?_, Or.inl hout⟩
    rw [hout]
    constructor
    · intro h
      simp at h
    · rintro ⟨h1, -, -⟩
      exact absurd hage (not_lt.mpr h1)
  · have hage2 : now - d.timestamp ≤ 24 * main.msPerHour := not_lt.mp hage
    cases hfind : cache.find? (fun n => decide (n.id = d.noteId)) with
    | none =>
      have hout : main.restoreDraft (storage.Stored.value d) cache now =
          main.RestoreOutcome.cleared := by
        simp [main.restoreDraft, storage.loadDraft, hage, hfind]
      refine ⟨fun note => ?_, Or.inl hout⟩
      rw [hout]
      constructor
      · intro h
        simp at h
      · rintro ⟨-, h2, -⟩
        exact Option.noConfusion h2
    | some note0 =>
      by_cases hch : d.title ≠ note0.title ∨ d.content ≠ note0.content ∨
          d.tags ≠ joinTags note0.tags
      · have hout : main.restoreDraft (storage.Stored.value d) cache now =
            main.RestoreOutcome.restored note0 d := by
          simp [main.restoreDraft, storage.loadDraft, hage, hfind, hch]
        refine ⟨fun note => ?_, Or.inr ⟨note0, hout⟩⟩
        rw [hout]
        constructor
        · intro h
          injection h with hn hd
          subst hn
          exact ⟨hage2, rfl, hch⟩
        · rintro ⟨-, h2, -⟩
          injection h2 with hn
          subst hn
          rfl
      · have hout : main.restoreDraft (storage.Stored.value d) cache now =
            main.RestoreOutcome.cleared := by
          simp [main.restoreDraft, storage.loadDraft, hage, hfind, hch]
        refine ⟨fun note => ?_, Or.inl hout⟩
        rw [hout]
        constructor
        · intro h
          simp at h
        · rintro ⟨-, h2, hc⟩
          injection h2 with hn
          subst hn
          exact absurd hc hch

/-- Claim C1 counterexample: with `currentView = "archived"` and a cache
holding one archived note, a successful save re-renders the non-archived
filter of the cache, not the cache filtered by the current view's archived
status (which would show the archived note). -/
theorem saveRender_ignores_current_view :
    (main.handleSaveNote [cNote] (some ['a']) (Except.ok cNote)).rendered ≠
      some (main.renderForView main.archivedView
        (main.handleSaveNote [cNote] (some ['a']) (Except.ok cNote)).cache) := by
  decide

/-- Claim C1 (amended): after every successful mutating remote call the
cache reflects the mutation — the created note is prepended, the updated
note replaces the old one at its `findIndex`, the archived flag is set in
place at its `findIndex`, the deleted note's id is filtered out — and the
list is re-rendered from the updated cache: archive and delete filter by
the current view's archived status, while create and save always render
the non-archived filter. -/
theorem cache_sync_after_success (cache : List Note) (view nid : Str)
    (newNote updated : Note) (archive : Bool) :
    ((main.handleCreateNote cache (Except.ok newNote)).cache = newNote :: cache ∧
     (main.handleCreateNote cache (Except.ok newNote)).rendered =
       some ((newNote :: cache).filter (fun n => !n.archived))) ∧
    (∀ i, cache.findIdx? (fun n => decide (n.id = nid)) = some i →
      (main.handleSaveNote cache (some nid) (Except.ok updated)).cache =
          cache.set i updated ∧
      (∀ j, j ≠ i →
        (main.handleSaveNote cache (some nid) (Except.ok updated)).cache[j]? =
          cache[j]?) ∧
      (main.handleSaveNote cache (some nid) (Except.ok updated)).rendered =
        some ((cache.set i updated).filter (fun n => !n.archived))) ∧
    (∀ i, cache.findIdx? (fun n => decide (n.id = nid)) = some i →
      (∀ j, (main.performArchive cache view nid archive (Except.ok ())).cache[j]? =
        if j = i then (cache[j]?).map (fun n => { n with archived := archive })
        else cache[j]?) ∧
      (main.performArchive cache view nid archive (Except.ok ())).rendered =
        some (main.renderForView view
          (main.performArchive cache view nid archive (Except.ok ())).cache)) ∧
    ((main.performDelete cache view nid (Except.ok ())).cache =
        cache.filter (fun n => decide (n.id ≠ nid)) ∧
     ∀ n, n ∈ (main.performDelete cache view nid (Except.ok ())).cache ↔
        n ∈ cache ∧ n.id ≠ nid) ∧
    (main.performDelete cache view nid (Except.ok ())).rendered =
      some (main.renderForView view
        (main.performDelete cache view nid (Except.ok ())).cache) := by
  refine ⟨⟨rfl, rfl⟩, fun i hi => ?_, fun i hi => ?_, ⟨rfl, fun n => ?_⟩, rfl⟩
  · simp only [main.handleSaveNote, hi]
    exact ⟨by trivial, fun j hj => List.getElem?_set_ne (Ne.symm hj), by trivial⟩
  · simp only [main.performArchive, hi]
    refine ⟨fun j => ?_, by trivial⟩
    rw [List.getElem?_modify]
    by_cases hij : i = j
    · subst hij
      cases hc : cache[i]? <;> simp
    · have hji : j ≠ i := fun h => hij h.symm
      cases hc : cache[j]? <;> simp [hij, hji]
  · simp [main.performDelete, List.mem_filter]

/-- Claim C3 counterexample: a remote collection of 101 documents with
pairwise distinct ids contains a document whose note is not loaded by
`getAllNotes` — the query's `limit(100)` drops it. -/
theorem getAllNotes_misses_note_101 :
    limitDoc 100 ∈ limitCol ∧
    appwrite.docToNote (limitDoc 100) ∉ appwrite.getAllNotes limitCol := by
  decide

/-- Claim C3 (amended): initialization sets `notesCache` to the result of
one remote query limited to 100 documents; whenever the remote collection
holds at most 100 documents, every one of its notes is loaded into the
cache (there is no further caching or eviction policy below that query
limit). -/
theorem getAllNotes_loads_all_upto_limit (col : List appwrite.AppwriteDoc)
    (h : col.length ≤ 100) :
    (appwrite.getAllNotes col).length = col.length ∧
    ∀ d ∈ col, appwrite.docToNote d ∈ appwrite.getAllNotes col := by
  have hperm := List.perm_insertionSort
    (fun a b : appwrite.AppwriteDoc => b.createdAt ≤ a.createdAt) col
  have hlen := hperm.length_eq
  have htake : (List.insertionSort
      (fun a b : appwrite.AppwriteDoc => b.createdAt ≤ a.createdAt) col).take 100 =
      List.insertionSort (fun a b : appwrite.AppwriteDoc => b.createdAt ≤ a.createdAt) col :=
    List.take_of_length_le (le_trans (le_of_eq hlen) h)
  constructor
  · simp [appwrite.getAllNotes, htake, hlen]
  · intro d hd
    simp only [appwrite.getAllNotes, htake]
    exact List.mem_map_of_mem _ (hperm.mem_iff.mpr hd)

/-- Witness for the amended claim C3 at a two-document collection. -/
theorem getAllNotes_loads_all_upto_limit_witness :
    appwrite.docToNote (limitDoc 0) ∈ appwrite.getAllNotes [limitDoc 0, limitDoc 1] :=
  (getAllNotes_loads_all_upto_limit [limitDoc 0, limitDoc 1] (by decide)).2
    (limitDoc 0) (by decide)

theorem comma_space_toList : (", ".toList : Str) = [',', ' '] := by decide

theorem trimStr_cons_space (s : Str) : trimStr (' ' :: s) = trimStr s := by
  have h : (' ' : Char).isWhitespace = true := by decide
  simp [trimStr, List.dropWhile_cons, h]

theorem intercalate_cons_two {α : Type} (sep : List α) (a b : List α)
    (l : List (List α)) :
    List.intercalate sep (a :: b :: l) = a ++ sep ++ List.intercalate sep (b :: l) := by
  simp [List.intercalate, List.intersperse_cons_cons, List.append_assoc]

theorem intercalate_one {α : Type} (sep : List α) (a : List α) :
    List.intercalate sep [a] = a := by
  simp [List.intercalate]

theorem intercalate_cons_head (x : Char) (a : Str) (L : List Str) :
    List.intercalate [','] ((x :: a) :: L) = x :: List.intercalate [','] (a :: L) := by
  cases L with
  | nil => simp [intercalate_one]
  | cons b bs => simp [intercalate_cons_two]

theorem joinTags_as_single_comma (t : Str) (ts : List Str) :
    joinTags (t :: ts) =
      List.intercalate [','] (t :: ts.map (fun s => ' ' :: s)) := by
  induction ts generalizing t with
  | nil => simp [joinTags, intercalate_one]
  | cons s ss ih =>
    rw [joinTags, intercalate_cons_two, comma_space_toList]
    rw [List.map_cons, intercalate_cons_two, intercalate_cons_head]
    have ihs := ih s
    rw [joinTags, comma_space_toList] at ihs
    rw [ihs]
    simp [List.append_assoc]

/-- Claim C10: the editor serialises tags with `join(", ")` and the save
handler parses them back by splitting on commas, trimming and dropping
empty pieces; for every tag list whose tags are non-empty, comma-free and
free of leading or trailing whitespace, the round trip is the identity. -/
theorem tags_join_parse_roundtrip (tags : List Str)
    (h : ∀ t ∈ tags, t ≠ [] ∧ ',' ∉ t ∧ trimStr t = t) :
    parseTags (joinTags tags) = tags := by
  cases tags with
  | nil => decide
  | cons t ts =>
    rw [joinTags_as_single_comma]
    have hx : ∀ l ∈ t :: ts.map (fun s => ' ' :: s), ',' ∉ l := by
      intro l hl
      rcases List.mem_cons.mp hl with rfl | hl
      · exact (h l (List.mem_cons_self l ts)).2.1
      · rcases List.mem_map.mp hl with ⟨s, hs, rfl⟩
        intro hc
        rcases List.mem_cons.mp hc with hc | hc
        · exact absurd hc (by decide)
        · exact (h s (List.mem_cons_of_mem t hs)).2.1 hc
    have hsplit := List.splitOn_intercalate (t :: ts.map (fun s => ' ' :: s))
      ',' hx (by simp)
    rw [parseTags, hsplit]
    have hmap : (t :: ts.map (fun s => ' ' :: s)).map trimStr = t :: ts := by
      rw [List.map_cons, List.map_map]
      congr 1
      · exact (h t (List.mem_cons_self t ts)).2.2
      · have hcong : List.map (trimStr ∘ fun s => ' ' :: s) ts =
            List.map (fun s => s) ts :=
          List.map_congr_left (fun s hs => (trimStr_cons_space s).trans
            ((h s (List.mem_cons_of_mem t hs)).2.2))
        rw [hcong]
        simp
    rw [hmap]
    rw [List.filter_eq_self.mpr]
    intro a ha
    have hne : a ≠ [] := (h a ha).1
    simpa [List.isEmpty_iff] using hne

/-- Witness for claim C10 at a concrete two-tag list. -/
theorem tags_join_parse_roundtrip_witness :
    parseTags (joinTags [['d', 'e', 'v'], ['w', 'o', 'r', 'k']]) =
      [['d', 'e', 'v'], ['w', 'o', 'r', 'k']] :=
  tags_join_parse_roundtrip [['d', 'e', 'v'], ['w', 'o', 'r', 'k']] (by decide)
